import Mathlib

/-!
Verification of the repeatability metric engine of KP2DSonar
(`kp2dsonar/evaluation/detector_evaluation_sonar.py`).

Keypoint arrays are numpy `(N, 3)` arrays of rows `(x, y, confidence)`.
We embed a row as `List ℚ` and a point set as `List Row`; a missing
column (numpy `IndexError`) is modelled by `Option`.  The correspondence
matcher works on real-valued Cartesian points `ℝ × ℝ`.
-/

namespace KP2DSonar

/-- A numpy row: one keypoint record, columns typically `(x, y, confidence)`. -/
abbrev Row := List ℚ

/-- numpy boolean-mask row selection `points[mask, :]`:
keep the rows whose mask bit is `true`. -/
def np_mask_select (points : List Row) (mask : List Bool) : List Row :=
  ((points.zip mask).filter (fun pm => pm.2)).map (fun pm => pm.1)

/-- One row's contribution to the bounds mask
`(p[:,0] >= 0) & (p[:,0] < shape[0]) & (p[:,1] >= 0) & (p[:,1] < shape[1])`;
`none` models the numpy `IndexError` on a row without columns 0 and 1. -/
def rowInBounds (h w : ℚ) (r : Row) : Option Bool :=
  match r[0]?, r[1]? with
  | some x, some y =>
      some (decide (0 ≤ x) && decide (x < h) && decide (0 ≤ y) && decide (y < w))
  | _, _ => none

/-- The full bounds mask over a point set, failing if any row lacks a coordinate. -/
def boundsMask (h w : ℚ) : List Row → Option (List Bool)
  | [] => some []
  | r :: rs =>
    match rowInBounds h w r, boundsMask h w rs with
    | some b, some bs => some (b :: bs)
    | _, _ => none

/-- `filter_keypoints(points, shape)` from the source: keep only the rows whose
own coordinates are inside `[0, shape[0]) × [0, shape[1])`. -/
def filter_keypoints (points : List Row) (shape : ℚ × ℚ) : Option (List Row) :=
  match boundsMask shape.1 shape.2 points with
  | some mask => some (np_mask_select points mask)
  | none => none

/-- `keep_true_keypoints(points, ckw, shape)` from the source: the mask is
computed from the companion rows `ckw`, and then selects rows of `points`.
numpy requires the boolean mask length to match the indexed axis. -/
def keep_true_keypoints (points ckw : List Row) (shape : ℚ × ℚ) : Option (List Row) :=
  match boundsMask shape.1 shape.2 ckw with
  | some mask =>
      if points.length = mask.length then some (np_mask_select points mask) else none
  | none => none

/-- The sort key of `points[:,2].argsort()`: compare rows by their probability
column.  The default of `getD` is never consulted: `sort_slice` probes column 2
of every row first. -/
def confLE (r s : Row) : Bool := decide (r.getD 2 0 ≤ s.getD 2 0)

/-- Probe the probability column `points[:,2]`; `none` models the numpy
`IndexError` when a row has no column 2. -/
def probCol : List Row → Option (List ℚ)
  | [] => some []
  | r :: rs =>
    match r[2]?, probCol rs with
    | some x, some xs => some (x :: xs)
    | _, _ => none

/-- The sort-and-slice core of `select_k_best`, keeping all columns:
sort ascending by the probability column, let `start = min k N`, and take the
Python slice `[-start:]` — which is the whole array when `start = 0`.
numpy's `argsort` with the default kind does not guarantee the order of tied
keys; the model realises one admissible ascending order via `mergeSort`. -/
def sort_slice (points : List Row) (k : ℕ) : Option (List Row) :=
  match probCol points with
  | none => none
  | some _ =>
    let sorted := points.mergeSort confLE
    let start := min k points.length
    some (if start = 0 then sorted else sorted.drop (sorted.length - start))

/-- `select_k_best(points, k)` from the source:
`sorted_prob = points[points[:,2].argsort(), :2]` then `sorted_prob[-start:, :]`
with `start = min(k, points.shape[0])` — the sort-and-slice core with each
surviving row stripped to its first two columns. -/
def select_k_best (points : List Row) (k : ℕ) : Option (List Row) :=
  (sort_slice points k).map (fun l => l.map (fun r => r.take 2))

/-- The spec's description of top-k selection: sort ascending by confidence
(stable), strip the confidence, and keep the last `min k N` entries. -/
def select_top_k_spec (points : List Row) (k : ℕ) : List Row :=
  (((points.mergeSort confLE).map (fun r => r.take 2))).drop
    (points.length - min k points.length)

/-- The claim's membership predicate for the bounds filters:
first coordinate in `[0, h)`, second in `[0, w)`. -/
def inBoundsQ (h w : ℚ) (r : Row) : Bool :=
  decide (0 ≤ r.getD 0 0 ∧ r.getD 0 0 < h ∧ 0 ≤ r.getD 1 0 ∧ r.getD 1 0 < w)

/-- `normalize_keypoints(kp, f, a) = kp / f - a`, elementwise on both axes. -/
noncomputable def normalize_keypoints (kp f a : ℝ × ℝ) : ℝ × ℝ :=
  (kp.1 / f.1 - a.1, kp.2 / f.2 - a.2)

/-- `unnormalize_keypoints(kp, f, a) = (kp + a) * f`, elementwise on both axes. -/
noncomputable def unnormalize_keypoints (kp f a : ℝ × ℝ) : ℝ × ℝ :=
  ((kp.1 + a.1) * f.1, (kp.2 + a.2) * f.2)

/-- Euclidean distance between two Cartesian points:
`np.linalg.norm(a - b)` with the default `ord=None` (L2). -/
noncomputable def euclid (p q : ℝ × ℝ) : ℝ :=
  Real.sqrt ((p.1 - q.1) ^ 2 + (p.2 - q.2) ^ 2)

/-- One row of `np.min(norm, axis=1)`: the minimum of `a`'s distances to the
points of `B`; `none` when `B` is empty (numpy would refuse to reduce). -/
noncomputable def minDist (a : ℝ × ℝ) (B : List (ℝ × ℝ)) : Option ℝ :=
  (B.map (euclid a)).min?

open Classical in
/-- The matched minimum distances `min1[correct1]` of the points of `A` toward
`B`: each point of `A` contributes its minimum distance to `B` when that
minimum exists and is at most the threshold. -/
noncomputable def matchedDists (A B : List (ℝ × ℝ)) (t : ℝ) : List ℝ :=
  (A.filterMap (fun a => minDist a B)).filter (fun d => decide (d ≤ t))

/-- The tail of `compute_repeatability_sonar` (lines 112–141 of the source):
from the two post-filter, post-top-k point sets, the counts `N1, N2`, the
guarded match statistics, and the final `(N1, N2, repeatability, loc_err)`
with the `(-1, -1)` sentinel. -/
noncomputable def compute_repeatability_core (A B : List (ℝ × ℝ)) (t : ℝ) :
    ℕ × ℕ × ℝ × ℝ :=
  let N1 := A.length
  let N2 := B.length
  let count1 := if N2 ≠ 0 then (matchedDists A B t).length else 0
  let le1 : ℝ := if N2 ≠ 0 then (matchedDists A B t).sum else 0
  let count2 := if N1 ≠ 0 then (matchedDists B A t).length else 0
  let le2 : ℝ := if N1 ≠ 0 then (matchedDists B A t).sum else 0
  if 0 < N1 + N2 ∧ 0 < count1 + count2 then
    (N1, N2, ((count1 + count2 : ℕ) : ℝ) / ((N1 + N2 : ℕ) : ℝ),
      (le1 + le2) / ((count1 + count2 : ℕ) : ℝ))
  else (N1, N2, -1, -1)

/-- Modelled from the spec: `pol_2_cart` lives in
`kp2dsonar/datasets/noise_model.py`, which is not among the given sources.
Per §4.2 the input point is `(range_frac, bearing_frac)`; `range_frac` maps
linearly onto the physical range window `[r_min, r_max]`, `bearing_frac` maps
linearly onto the angle window `[-fov/2, fov/2]` (`fov` in degrees), and the
Cartesian image is `(range * sin angle, range * cos angle)`. -/
noncomputable def pol_2_cart (p : ℝ × ℝ) (fov r_min r_max : ℝ) : ℝ × ℝ :=
  let range := r_min + p.1 * (r_max - r_min)
  let angle := (p.2 - 1 / 2) * (fov * Real.pi / 180)
  (range * Real.sin angle, range * Real.cos angle)

/-- Modelled from the spec: `cart_2_pol` of `kp2dsonar/datasets/noise_model.py`
(not among the given sources) is the exact inverse mapping of §4.2, recovering
`(range_frac, bearing_frac)` from `(x, y)` via the radius `sqrt (x² + y²)` and
the bearing `arctan (x / y)`. -/
noncomputable def cart_2_pol (q : ℝ × ℝ) (fov r_min r_max : ℝ) : ℝ × ℝ :=
  let range := Real.sqrt (q.1 ^ 2 + q.2 ^ 2)
  let angle := Real.arctan (q.1 / q.2)
  ((range - r_min) / (r_max - r_min), angle / (fov * Real.pi / 180) + 1 / 2)

theorem rowInBounds_of_len {h w : ℚ} {r : Row} (hr : 2 ≤ r.length) :
    rowInBounds h w r = some (inBoundsQ h w r) := by
  match r, hr with
  | x :: y :: t, _ =>
    simp [rowInBounds, inBoundsQ, List.getD, Bool.decide_and, Bool.and_assoc]

theorem boundsMask_of_len {h w : ℚ} {ps : List Row} (hps : ∀ r ∈ ps, 2 ≤ r.length) :
    boundsMask h w ps = some (ps.map (inBoundsQ h w)) := by
  induction ps with
  | nil => rfl
  | cons r rs ih =>
    have hr := @rowInBounds_of_len h w r (hps r (by simp))
    have hrs := ih (fun r hr => hps r (by simp [hr]))
    simp [boundsMask, hr, hrs]

theorem np_mask_select_map {p : Row → Bool} (ps : List Row) :
    np_mask_select ps (ps.map p) = ps.filter p := by
  induction ps with
  | nil => rfl
  | cons r rs ih =>
    by_cases hp : p r <;> simp [np_mask_select, hp] <;>
      simpa [np_mask_select] using ih

theorem np_mask_select_zip {f : Row → Bool} :
    ∀ (ps cs : List Row), ps.length = cs.length →
      np_mask_select ps (cs.map f) =
        ((ps.zip cs).filter (fun pc => f pc.2)).map (fun pc => pc.1)
  | [], [], _ => rfl
  | [], _ :: _, hlen => by simp at hlen
  | _ :: _, [], hlen => by simp at hlen
  | p :: ps, c :: cs, hlen => by
    have ih := @np_mask_select_zip f ps cs (by simpa using hlen)
    by_cases hf : f c <;> simp [np_mask_select, hf] <;>
      simpa [np_mask_select] using ih

/-- C6: `filter_keypoints` returns exactly the subsequence of rows whose first
coordinate lies in `[0, height)` and second coordinate lies in `[0, width)`;
in particular a row at `(height, 0)` is excluded. -/
theorem filter_keypoints_in_bounds (points : List Row) (h w : ℚ)
    (hlen : ∀ r ∈ points, 2 ≤ r.length) :
    filter_keypoints points (h, w) = some (points.filter (inBoundsQ h w)) ∧
    ∀ res, filter_keypoints points (h, w) = some res → ∀ c : ℚ, [h, 0, c] ∉ res := by
  have hfk : filter_keypoints points (h, w) = some (points.filter (inBoundsQ h w)) := by
    simp [filter_keypoints, @boundsMask_of_len h w points hlen, np_mask_select_map]
  refine ⟨hfk, ?_⟩
  intro res hres c hmem
  rw [hfk] at hres
  obtain rfl : points.filter (inBoundsQ h w) = res := by simpa using hres
  have hb := (List.mem_filter.mp hmem).2
  simp [inBoundsQ, List.getD] at hb

theorem filter_keypoints_in_bounds_witness :
    filter_keypoints [[(0:ℚ), 0, 1], [5, 0, 1], [2, 5, 1]] (4, 4) = some [[(0:ℚ), 0, 1]] :=
  ((filter_keypoints_in_bounds [[(0:ℚ), 0, 1], [5, 0, 1], [2, 5, 1]] 4 4
    (by decide)).1).trans (by decide)

/-- C5: `keep_true_keypoints` retains exactly those rows of `points` whose
companion row (same index in `ckw`) lands inside `[0, height) × [0, width)`:
membership is decided by the companion's coordinates, never the row's own. -/
theorem keep_true_keypoints_companion (points ckw : List Row) (h w : ℚ)
    (hlen : points.length = ckw.length) (hc : ∀ r ∈ ckw, 2 ≤ r.length) :
    keep_true_keypoints points ckw (h, w) =
      some (((points.zip ckw).filter (fun pc => inBoundsQ h w pc.2)).map (fun pc => pc.1)) := by
  have hmask := @boundsMask_of_len h w ckw hc
  have hlen2 : points.length = (ckw.map (inBoundsQ h w)).length := by simpa using hlen
  simp [keep_true_keypoints, hmask, hlen2, np_mask_select_zip points ckw hlen]

theorem keep_true_keypoints_companion_witness :
    keep_true_keypoints [[(100:ℚ), 100, 9], [1, 1, 9]] [[(0:ℚ), 0, 0], [9, 9, 0]] (4, 4) =
      some [[(100:ℚ), 100, 9]] :=
  (keep_true_keypoints_companion [[(100:ℚ), 100, 9], [1, 1, 9]] [[(0:ℚ), 0, 0], [9, 9, 0]] 4 4
    (by decide) (by decide)).trans (by decide)

theorem confLE_trans : ∀ (a b c : Row), confLE a b → confLE b c → confLE a c := by
  intro a b c hab hbc
  simp only [confLE, decide_eq_true_eq] at *
  exact le_trans hab hbc

theorem confLE_total : ∀ (a b : Row), confLE a b || confLE b a := by
  intro a b
  simp only [confLE, Bool.or_eq_true, decide_eq_true_eq]
  exact le_total _ _

theorem probCol_of_len {ps : List Row} (hps : ∀ r ∈ ps, 2 < r.length) :
    probCol ps = some (ps.map (fun r => r.getD 2 0)) := by
  induction ps with
  | nil => rfl
  | cons r rs ih =>
    have hr : 2 < r.length := hps r (by simp)
    have hrs := ih (fun r hr => hps r (by simp [hr]))
    match r, hr with
    | x :: y :: z :: t, _ => simp [probCol, hrs, List.getD]

unseal List.merge List.mergeSort in
/-- C4 (counterexample): at `k = 0` on a non-empty set, `select_k_best` does
not return the last `min(k, N) = 0` entries (the empty list, as the claim
states) — the Python slice `[-0:]` returns everything. -/
theorem select_k_best_k0_cex :
    select_k_best [[(1:ℚ), 2, 5]] 0 = some [[(1:ℚ), 2]] ∧
    select_top_k_spec [[(1:ℚ), 2, 5]] 0 = [] := by
  decide

/-- C4 (amended): for `0 < k`, `select_k_best` returns the last `min(k, N)`
entries of an ascending-by-confidence ordering of the input, with the
confidence column stripped.  The order among equal confidences is not
guaranteed by the program (numpy's default argsort kind is unstable), so only
the existence of such an ordering is asserted. -/
theorem select_k_best_sorted_tail (points : List Row) (k : ℕ)
    (hcol : ∀ r ∈ points, 2 < r.length) (hk : 0 < k) :
    ∃ sorted : List Row, sorted.Perm points ∧
      sorted.Pairwise (fun a b => confLE a b = true) ∧
      select_k_best points k =
        some ((sorted.drop (sorted.length - min k points.length)).map
          (fun r => r.take 2)) := by
  refine ⟨points.mergeSort confLE, List.mergeSort_perm points confLE,
    List.sorted_mergeSort confLE_trans confLE_total points, ?_⟩
  rw [select_k_best, sort_slice, probCol_of_len hcol]
  cases points with
  | nil => simp
  | cons p ps =>
    have hk0 : k ≠ 0 := by omega
    simp [hk0, List.map_drop]

theorem select_k_best_sorted_tail_witness :
    ∃ sorted : List Row, sorted.Perm [[(1:ℚ), 1, 5], [2, 2, 5], [3, 3, 1]] ∧
      sorted.Pairwise (fun a b => confLE a b = true) ∧
      select_k_best [[(1:ℚ), 1, 5], [2, 2, 5], [3, 3, 1]] 2 =
        some ((sorted.drop
            (sorted.length - min 2 [[(1:ℚ), 1, 5], [2, 2, 5], [3, 3, 1]].length)).map
          (fun r => r.take 2)) :=
  select_k_best_sorted_tail [[(1:ℚ), 1, 5], [2, 2, 5], [3, 3, 1]] 2 (by decide) (by decide)

/-- C10: at `k = 0` on a non-empty set, `select_k_best` returns the coordinates
of all rows, sorted ascending by confidence — as many rows as the input. -/
theorem select_k_best_k0_all (points : List Row)
    (hcol : ∀ r ∈ points, 2 < r.length) (_hne : points ≠ []) :
    select_k_best points 0 = some ((points.mergeSort confLE).map (fun r => r.take 2)) ∧
    ((points.mergeSort confLE).map (fun r => r.take 2)).length = points.length := by
  constructor
  · rw [select_k_best, sort_slice, probCol_of_len hcol]
    simp
  · simp

theorem select_k_best_k0_all_witness :
    select_k_best [[(1:ℚ), 2, 5], [3, 4, 2]] 0 =
      some (([[(1:ℚ), 2, 5], [3, 4, 2]].mergeSort confLE).map (fun r => r.take 2)) ∧
    (([[(1:ℚ), 2, 5], [3, 4, 2]].mergeSort confLE).map (fun r => r.take 2)).length =
      [[(1:ℚ), 2, 5], [3, 4, 2]].length :=
  select_k_best_k0_all [[(1:ℚ), 2, 5], [3, 4, 2]] (by decide) (by decide)

/-- C7: for nonzero per-axis scales, `unnormalize ∘ normalize` and
`normalize ∘ unnormalize` are both the identity — exact inverses. -/
theorem normalize_unnormalize_inverse (p f a : ℝ × ℝ) (hf1 : f.1 ≠ 0) (hf2 : f.2 ≠ 0) :
    unnormalize_keypoints (normalize_keypoints p f a) f a = p ∧
    normalize_keypoints (unnormalize_keypoints p f a) f a = p := by
  unfold normalize_keypoints unnormalize_keypoints
  constructor
  · have e1 : p.1 / f.1 * f.1 = p.1 := div_mul_cancel₀ _ hf1
    have e2 : p.2 / f.2 * f.2 = p.2 := div_mul_cancel₀ _ hf2
    simp [e1, e2]
  · have e1 : (p.1 + a.1) * f.1 / f.1 = p.1 + a.1 := mul_div_cancel_right₀ _ hf1
    have e2 : (p.2 + a.2) * f.2 / f.2 = p.2 + a.2 := mul_div_cancel_right₀ _ hf2
    simp [e1, e2]

theorem normalize_unnormalize_inverse_witness :
    unnormalize_keypoints (normalize_keypoints (3, 4) (2, 5) (1, 1)) (2, 5) (1, 1) = ((3:ℝ), (4:ℝ)) ∧
    normalize_keypoints (unnormalize_keypoints (3, 4) (2, 5) (1, 1)) (2, 5) (1, 1) = ((3:ℝ), (4:ℝ)) :=
  normalize_unnormalize_inverse (3, 4) (2, 5) (1, 1) (by norm_num) (by norm_num)

theorem matchedDists_nil_right (A : List (ℝ × ℝ)) (t : ℝ) :
    matchedDists A [] t = [] := by
  simp [matchedDists, minDist]

theorem matchedDists_length_le (A B : List (ℝ × ℝ)) (t : ℝ) :
    (matchedDists A B t).length ≤ A.length :=
  le_trans (List.length_filter_le _ _) (List.length_filterMap_le _ _)

theorem matchedDists_mem_nonneg {A B : List (ℝ × ℝ)} {t : ℝ} {d : ℝ}
    (hd : d ∈ matchedDists A B t) : 0 ≤ d := by
  have hd2 := List.mem_filter.mp hd
  obtain ⟨a, _, hmin⟩ := List.mem_filterMap.mp hd2.1
  have hmem : d ∈ B.map (euclid a) := List.min?_mem (fun a b => min_choice a b) hmin
  obtain ⟨b, _, rfl⟩ := List.mem_map.mp hmem
  exact Real.sqrt_nonneg _

theorem matchedDists_sum_nonneg (A B : List (ℝ × ℝ)) (t : ℝ) :
    0 ≤ (matchedDists A B t).sum :=
  List.sum_nonneg (fun _ hd => matchedDists_mem_nonneg hd)

/-- The guards `if N2 != 0` in the source are redundant for the statistics:
with an empty opposite set there are no minima at all. -/
theorem count_guard_eq (A B : List (ℝ × ℝ)) (t : ℝ) :
    (if B.length ≠ 0 then (matchedDists A B t).length else 0) =
      (matchedDists A B t).length ∧
    (if B.length ≠ 0 then (matchedDists A B t).sum else (0:ℝ)) =
      (matchedDists A B t).sum := by
  by_cases hB : B.length = 0
  · obtain rfl : B = [] := List.length_eq_zero.mp hB
    simp [matchedDists_nil_right]
  · simp [hB]

theorem euclid_comm (p q : ℝ × ℝ) : euclid p q = euclid q p := by
  rw [euclid, euclid]
  ring_nf

theorem matchedDists_far {A B : List (ℝ × ℝ)} {t : ℝ}
    (h : ∀ a ∈ A, ∀ b ∈ B, t < euclid a b) : matchedDists A B t = [] := by
  induction A with
  | nil => simp [matchedDists]
  | cons a A ih =>
    have hrest : matchedDists A B t = [] := ih (fun x hx => h x (by simp [hx]))
    cases hmin : minDist a B with
    | none =>
      simp only [matchedDists, List.filterMap_cons, hmin] at hrest ⊢
      exact hrest
    | some d =>
      rw [minDist] at hmin
      have hdmem : d ∈ B.map (euclid a) := List.min?_mem (fun x y => min_choice x y) hmin
      obtain ⟨b, hb, rfl⟩ := List.mem_map.mp hdmem
      have htd : ¬ (euclid a b ≤ t) := not_le.mpr (h a (by simp) b hb)
      simp only [matchedDists, List.filterMap_cons, minDist, hmin, List.filter_cons] at hrest ⊢
      simp [htd, hrest]

theorem core_eq_formula (A B : List (ℝ × ℝ)) (t : ℝ)
    (hpos : 0 < (matchedDists A B t).length + (matchedDists B A t).length) :
    compute_repeatability_core A B t =
      (A.length, B.length,
        (((matchedDists A B t).length + (matchedDists B A t).length : ℕ) : ℝ) /
          ((A.length + B.length : ℕ) : ℝ),
        ((matchedDists A B t).sum + (matchedDists B A t).sum) /
          (((matchedDists A B t).length + (matchedDists B A t).length : ℕ) : ℝ)) := by
  have hAB : 0 < A.length + B.length := by
    by_contra hc
    push_neg at hc
    have hA : A = [] := List.length_eq_zero.mp (by omega)
    have hB : B = [] := List.length_eq_zero.mp (by omega)
    subst hA; subst hB
    simp [matchedDists] at hpos
  have g1 := count_guard_eq A B t
  have g2 := count_guard_eq B A t
  simp only [compute_repeatability_core, g1.1, g1.2, g2.1, g2.2]
  rw [if_pos ⟨hAB, hpos⟩]

theorem core_sentinel (A B : List (ℝ × ℝ)) (t : ℝ)
    (hcond : (A = [] ∧ B = []) ∨
      (matchedDists A B t).length + (matchedDists B A t).length = 0) :
    (compute_repeatability_core A B t).2.2.1 = -1 ∧
    (compute_repeatability_core A B t).2.2.2 = -1 := by
  have g1 := count_guard_eq A B t
  have g2 := count_guard_eq B A t
  simp only [compute_repeatability_core, g1.1, g1.2, g2.1, g2.2]
  rcases hcond with ⟨hA, hB⟩ | hcnt
  · subst hA; subst hB
    simp
  · rw [if_neg]
    · simp
    · rintro ⟨_, hpos⟩
      omega

/-- C1: whenever at least one correct match exists, the returned repeatability
is `(count1 + count2) / (N1 + N2)` and the returned localization error is
`(le1 + le2) / (count1 + count2)`, where `count1`/`le1` are the number and the
sum of the matched minimum distances from the first set toward the second, and
`count2`/`le2` symmetrically. -/
theorem compute_repeatability_formula (A B : List (ℝ × ℝ)) (t : ℝ)
    (hpos : 0 < (matchedDists A B t).length + (matchedDists B A t).length) :
    compute_repeatability_core A B t =
      (A.length, B.length,
        (((matchedDists A B t).length + (matchedDists B A t).length : ℕ) : ℝ) /
          ((A.length + B.length : ℕ) : ℝ),
        ((matchedDists A B t).sum + (matchedDists B A t).sum) /
          (((matchedDists A B t).length + (matchedDists B A t).length : ℕ) : ℝ)) :=
  core_eq_formula A B t hpos

theorem compute_repeatability_formula_witness :
    compute_repeatability_core [((0:ℝ), 0)] [((0:ℝ), 0)] 3 = (1, 1, 1, 0) := by
  have hm : matchedDists [((0:ℝ), 0)] [((0:ℝ), 0)] 3 = [0] := by
    norm_num [matchedDists, minDist, euclid, List.filterMap_cons, List.filter_cons]
  have happ := compute_repeatability_formula [((0:ℝ), 0)] [((0:ℝ), 0)] 3 (by rw [hm]; norm_num)
  rw [happ, hm]
  norm_num

/-- C2: the sentinel `(-1, -1)` is returned exactly when both sets are empty or
no point of either set has a neighbour in the other within the threshold; in
particular, sets whose pairwise distances all exceed the threshold yield it. -/
theorem compute_repeatability_sentinel (A B : List (ℝ × ℝ)) (t : ℝ) :
    (((compute_repeatability_core A B t).2.2.1 = -1 ∧
        (compute_repeatability_core A B t).2.2.2 = -1) ↔
      ((A = [] ∧ B = []) ∨
        (matchedDists A B t).length + (matchedDists B A t).length = 0)) ∧
    ((∀ a ∈ A, ∀ b ∈ B, t < euclid a b) →
      (compute_repeatability_core A B t).2.2.1 = -1 ∧
      (compute_repeatability_core A B t).2.2.2 = -1) := by
  constructor
  · constructor
    · intro hsent
      by_contra hc
      push_neg at hc
      obtain ⟨hne, hcnt⟩ := hc
      have hcpos : 0 < (matchedDists A B t).length + (matchedDists B A t).length :=
        Nat.pos_of_ne_zero hcnt
      have hAB : 0 < A.length + B.length := by
        by_contra hc2
        push_neg at hc2
        have hA : A = [] := List.length_eq_zero.mp (by omega)
        have hB : B = [] := List.length_eq_zero.mp (by omega)
        exact hne hA hB
      have hrep := (core_eq_formula A B t hcpos) ▸ hsent.1
      simp only at hrep
      have hpos : (0:ℝ) <
          (((matchedDists A B t).length + (matchedDists B A t).length : ℕ) : ℝ) /
            ((A.length + B.length : ℕ) : ℝ) :=
        div_pos (by exact_mod_cast hcpos) (by exact_mod_cast hAB)
      rw [hrep] at hpos
      linarith
    · exact core_sentinel A B t
  · intro hfar
    apply core_sentinel A B t
    right
    have h1 : matchedDists A B t = [] := matchedDists_far hfar
    have h2 : matchedDists B A t = [] :=
      matchedDists_far (fun b hb a ha => (euclid_comm b a) ▸ hfar a ha b hb)
    simp [h1, h2]

theorem compute_repeatability_sentinel_witness :
    (compute_repeatability_core [((0:ℝ), 0)] [((4:ℝ), 0)] 3).2.2.1 = -1 ∧
    (compute_repeatability_core [((0:ℝ), 0)] [((4:ℝ), 0)] 3).2.2.2 = -1 :=
  (compute_repeatability_sentinel [((0:ℝ), 0)] [((4:ℝ), 0)] 3).2 (by
    intro a ha b hb
    simp at ha hb
    subst ha; subst hb
    rw [euclid]
    norm_num
    rw [show ((16:ℝ)) = 4 ^ 2 by norm_num, Real.sqrt_sq (by norm_num : (0:ℝ) ≤ 4)]
    norm_num)

/-- C8: the returned repeatability is `-1` or lies in `[0, 1]`, and the
returned localization error is `-1` or is nonnegative, for every input. -/
theorem compute_repeatability_range (A B : List (ℝ × ℝ)) (t : ℝ) :
    ((compute_repeatability_core A B t).2.2.1 = -1 ∨
      (0 ≤ (compute_repeatability_core A B t).2.2.1 ∧
        (compute_repeatability_core A B t).2.2.1 ≤ 1)) ∧
    ((compute_repeatability_core A B t).2.2.2 = -1 ∨
      0 ≤ (compute_repeatability_core A B t).2.2.2) := by
  rcases Nat.eq_zero_or_pos
      ((matchedDists A B t).length + (matchedDists B A t).length) with hz | hpos
  · have hs := core_sentinel A B t (Or.inr hz)
    exact ⟨Or.inl hs.1, Or.inl hs.2⟩
  · have hAB : 0 < A.length + B.length := by
      rcases Nat.eq_zero_or_pos (A.length + B.length) with h0 | h
      · exfalso
        have hA : A = [] := List.length_eq_zero.mp (by omega)
        have hB : B = [] := List.length_eq_zero.mp (by omega)
        subst hA; subst hB
        simp [matchedDists] at hpos
      · exact h
    rw [core_eq_formula A B t hpos]
    have hcle : (matchedDists A B t).length + (matchedDists B A t).length ≤
        A.length + B.length :=
      Nat.add_le_add (matchedDists_length_le A B t) (matchedDists_length_le B A t)
    constructor
    · right
      constructor
      · exact div_nonneg (by positivity) (by positivity)
      · rw [div_le_one (by exact_mod_cast hAB)]
        exact_mod_cast hcle
    · right
      exact div_nonneg
        (add_nonneg (matchedDists_sum_nonneg A B t) (matchedDists_sum_nonneg B A t))
        (by positivity)

/-- C3: on the sensor's valid domain — `range_frac, bearing_frac ∈ [0, 1]`,
aperture `0 < fov < 180` degrees, window `0 < r_min < r_max` — the
polar-to-Cartesian and Cartesian-to-polar transforms are mutual inverses,
exactly in real arithmetic (hence within every floating tolerance). -/
theorem cart_2_pol_pol_2_cart (p : ℝ × ℝ) (fov r_min r_max : ℝ)
    (hr0 : 0 ≤ p.1) (_hr1 : p.1 ≤ 1) (hb0 : 0 ≤ p.2) (hb1 : p.2 ≤ 1)
    (hfov0 : 0 < fov) (hfov1 : fov < 180)
    (hrmin : 0 < r_min) (hspan : r_min < r_max) :
    cart_2_pol (pol_2_cart p fov r_min r_max) fov r_min r_max = p := by
  have hpi := Real.pi_pos
  have hcpos : 0 < fov * Real.pi / 180 := by positivity
  have hclt : fov * Real.pi / 180 < Real.pi := by
    rw [div_lt_iff₀ (by norm_num : (0:ℝ) < 180)]
    nlinarith
  have hθ1 : (p.2 - 1 / 2) * (fov * Real.pi / 180) < Real.pi / 2 := by nlinarith
  have hθ2 : -(Real.pi / 2) < (p.2 - 1 / 2) * (fov * Real.pi / 180) := by nlinarith
  have hcos : 0 < Real.cos ((p.2 - 1 / 2) * (fov * Real.pi / 180)) :=
    Real.cos_pos_of_mem_Ioo ⟨hθ2, hθ1⟩
  have hrange : 0 < r_min + p.1 * (r_max - r_min) := by nlinarith
  simp only [pol_2_cart, cart_2_pol]
  rw [Prod.ext_iff]
  constructor
  · show (Real.sqrt _ - r_min) / (r_max - r_min) = p.1
    have hsq : (( r_min + p.1 * (r_max - r_min)) *
          Real.sin ((p.2 - 1 / 2) * (fov * Real.pi / 180))) ^ 2 +
        ((r_min + p.1 * (r_max - r_min)) *
          Real.cos ((p.2 - 1 / 2) * (fov * Real.pi / 180))) ^ 2 =
        (r_min + p.1 * (r_max - r_min)) ^ 2 := by
      have hsc := Real.sin_sq_add_cos_sq ((p.2 - 1 / 2) * (fov * Real.pi / 180))
      nlinarith [hsc]
    have hspan2 : r_max - r_min ≠ 0 := by linarith
    rw [hsq, Real.sqrt_sq hrange.le]
    field_simp
  · show Real.arctan _ / (fov * Real.pi / 180) + 1 / 2 = p.2
    have hdiv : (r_min + p.1 * (r_max - r_min)) *
          Real.sin ((p.2 - 1 / 2) * (fov * Real.pi / 180)) /
        ((r_min + p.1 * (r_max - r_min)) *
          Real.cos ((p.2 - 1 / 2) * (fov * Real.pi / 180))) =
        Real.tan ((p.2 - 1 / 2) * (fov * Real.pi / 180)) := by
      rw [Real.tan_eq_sin_div_cos]
      exact mul_div_mul_left _ _ (ne_of_gt hrange)
    rw [hdiv, Real.arctan_tan hθ2 hθ1]
    field_simp
    ring

theorem cart_2_pol_pol_2_cart_witness :
    cart_2_pol (pol_2_cart (1 / 2, 1 / 2) 90 1 2) 90 1 2 = ((1:ℝ) / 2, (1:ℝ) / 2) :=
  cart_2_pol_pol_2_cart (1 / 2, 1 / 2) 90 1 2 (by norm_num) (by norm_num)
    (by norm_num) (by norm_num) (by norm_num) (by norm_num) (by norm_num) (by norm_num)

end KP2DSonar
